import Mathlib

/-!
# TritonTube: consistent-hash routing, membership and migration

A shallow embedding of `internal/web/nw.go` (the router and membership
controller of the network video content service) together with the storage
node interface of `internal/storage/storage.go`.

* Hashes are `uint64` values; they are only ever compared, so they are modelled
  as natural numbers.
* A `node` keeps its address and hash.  Its gRPC client and connection are
  determined by the address: the remote store of a node is looked up by address
  in a `World`.
* The Go standard library functions used by the code (`sha256.Sum256`,
  `path.Join`, `path.Dir`, `path.Base`) are collected in `GoLib`.
-/

namespace TritonTube

/-! ## Data model -/

/-- The errors surfaced by the service.  `noLiveNodes` is `errors.New("no live nodes")`,
`nodeNotFound` is `errors.New("node not found")`; the other two stand for the
errors returned by `grpc.NewClient` and by a remote procedure call. -/
inductive Error where
  | noLiveNodes
  | nodeNotFound
  | connectFailed
  | rpcFailed
  deriving DecidableEq, Repr

deriving instance DecidableEq for Except

/-- The `node` struct of `nw.go`: address and hash (client and connection are
functions of the address). -/
structure node where
  addr : String
  hash : Nat
  deriving DecidableEq, Repr

/-- The ascending (non-strict) order on nodes used by both `sort.Slice` calls. -/
abbrev hashLE (a b : node) : Prop := a.hash ≤ b.hash

/-- The strict order of a ring without duplicate hashes. -/
abbrev hashLT (a b : node) : Prop := a.hash < b.hash

instance : IsTotal node hashLE := ⟨fun a b => Nat.le_total a.hash b.hash⟩

instance : IsTrans node hashLE := ⟨fun _ _ _ hab hbc => Nat.le_trans hab hbc⟩

/-! ## Ring lookup -/

/-- The loop of `getNodeForHash`: the first node, in list order, whose hash is
strictly greater than `hash` (the loop breaks there). -/
def firstGreater : List node → Nat → Option node
  | [], _ => none
  | n :: rest, hash => if n.hash > hash then some n else firstGreater rest hash

/-- Ring lookup, `getNodeForHash` of `nw.go`: fails on the empty list; otherwise
starts from `aliveNodes[0]` and replaces it by the first node with a greater
hash, if there is one. -/
def getNodeForHash (aliveNodes : List node) (hash : Nat) : Except Error node :=
  match aliveNodes with
  | [] => .error .noLiveNodes
  | first :: _ =>
    match firstGreater aliveNodes hash with
    | some n => .ok n
    | none => .ok first

/-! ## Go library functions and the hash function -/

/-- The Go standard library functions the code calls: `sha256.Sum256` (as the
list of digest bytes), `path.Join`, `path.Dir` and `path.Base`. -/
structure GoLib where
  sha256Sum : String → List Nat
  pathJoin : String → String → String
  pathDir : String → String
  pathBase : String → String

/-- The function `binary.BigEndian.Uint64` on a list of bytes. -/
def bigEndianUint64 (bs : List Nat) : Nat :=
  bs.foldl (fun acc b => acc * 256 + b % 256) 0

/-- The function `hashStringToUint64`: the first eight digest bytes, big-endian. -/
def hashStringToUint64 (L : GoLib) (s : String) : Nat :=
  bigEndianUint64 ((L.sha256Sum s).take 8)

/-! ## Storage nodes -/

/-- File contents. -/
abbrev Bytes := List Nat

/-- One stored object of a storage node: `<baseDir>/<videoId>/<fileName>`. -/
structure File where
  videoId : String
  fileName : String
  data : Bytes
  deriving DecidableEq, Repr

/-- The files of one storage node (the directory tree under its `baseDir`),
as a map from `(videoId, fileName)` to contents. -/
abbrev Store := List File

/-- The remote stores, by node address. -/
abbrev World := String → Store

/-- Whether a stored file is the one named `(videoId, fileName)`. -/
def File.named (f : File) (videoId fileName : String) : Bool :=
  decide (f.videoId = videoId) && decide (f.fileName = fileName)

/-- Contents served by `StorageService.Read`, when the file exists. -/
def Store.lookup (st : Store) (videoId fileName : String) : Option Bytes :=
  (st.find? (fun f => f.named videoId fileName)).map File.data

/-- Effect of `StorageService.Write`: the file is created or overwritten. -/
def Store.put (st : Store) (videoId fileName : String) (data : Bytes) : Store :=
  ⟨videoId, fileName, data⟩ :: st.filter (fun f => !f.named videoId fileName)

/-- Effect of `StorageService.Remove`: the file is deleted. -/
def Store.delete (st : Store) (videoId fileName : String) : Store :=
  st.filter (fun f => !f.named videoId fileName)

/-- Result of `StorageService.List`: `path.Join(subdir, name)` for every file. -/
def Store.list (L : GoLib) (st : Store) : List String :=
  st.map (fun f => L.pathJoin f.videoId f.fileName)

/-- Replace the store of the node at address `a`. -/
def World.set (w : World) (a : String) (st : Store) : World :=
  fun b => if b = a then st else w b

/-- What a failing `Read` call hands back as its response pointer: `nil` (what
a generated gRPC client returns together with an error) or some response. -/
inductive ReadFault where
  | none
  | failNil
  | failWith (data : Bytes)
  deriving DecidableEq, Repr

/-- The failures of the environment during one operation: which connection
attempts and which remote calls return an error. -/
structure Faults where
  connect : String → Bool
  list : String → Bool
  read : String → String → String → ReadFault
  write : String → String → String → Bool
  remove : String → String → String → Bool

/-- The environment in which no call fails. -/
def noFaults : Faults :=
  ⟨fun _ => false, fun _ => false, fun _ _ _ => .none, fun _ _ _ => false, fun _ _ _ => false⟩

/-- The pair `(response, err)` returned by `client.Read`. -/
inductive ReadReply where
  | ok (data : Bytes)
  | failNil
  | failWith (data : Bytes)
  deriving DecidableEq, Repr

/-- The field `fileData.FileData` of the response pointer; `none` when the
pointer is `nil` (dereferencing it panics). -/
def ReadReply.fileData : ReadReply → Option Bytes
  | .ok d => some d
  | .failNil => none
  | .failWith d => some d

/-- Whether `err != nil`. -/
def ReadReply.isErr : ReadReply → Bool
  | .ok _ => false
  | _ => true

/-- The call `client.Read` against the node at `a`. -/
def rpcRead (F : Faults) (w : World) (a videoId fileName : String) : ReadReply :=
  match F.read a videoId fileName with
  | .failNil => .failNil
  | .failWith d => .failWith d
  | .none =>
    match (w a).lookup videoId fileName with
    | some d => .ok d
    | none => .failNil

/-- The call `client.Write` against the node at `a`: the world afterwards and
whether `err != nil`.  A failed write stores nothing. -/
def rpcWrite (F : Faults) (w : World) (a videoId fileName : String) (data : Bytes) :
    World × Bool :=
  if F.write a videoId fileName then (w, true)
  else (w.set a ((w a).put videoId fileName data), false)

/-- The call `client.Remove` against the node at `a`: the world afterwards and
whether `err != nil`.  It fails when the file does not exist. -/
def rpcRemove (F : Faults) (w : World) (a videoId fileName : String) : World × Bool :=
  if F.remove a videoId fileName then (w, true)
  else if ((w a).lookup videoId fileName).isNone then (w, true)
  else (w.set a ((w a).delete videoId fileName), false)

/-- The call `client.List` against the node at `a`. -/
def rpcList (L : GoLib) (F : Faults) (w : World) (a : String) : Except Error (List String) :=
  if F.list a then .error .rpcFailed else .ok ((w a).list L)

/-! ## Service state, replies and traces -/

/-- The state: the `aliveNodes` slice and the remote stores. -/
structure State where
  aliveNodes : List node
  world : World

/-- The observable actions of an operation, in program order. -/
inductive Event where
  | rlock
  | runlock
  | lock
  | unlock
  | list (a : String)
  | read (a videoId fileName : String)
  | write (a videoId fileName : String)
  | remove (a videoId fileName : String)
  | close (a : String)
  deriving DecidableEq, Repr

/-- Whether an event is a remote call against a storage node. -/
def Event.isRemote : Event → Bool
  | .list _ => true
  | .read _ _ _ => true
  | .write _ _ _ => true
  | .remove _ _ _ => true
  | _ => false

/-- How an administrative call ends: a response carrying `MigratedFileCount`,
an error, or a run-time panic. -/
inductive Reply where
  | ok (migratedFileCount : Int)
  | err (e : Error)
  | crash
  deriving DecidableEq, Repr

/-- The conversion `int32(n)` of a non-negative `int`. -/
def int32 (n : Nat) : Int :=
  ((n : Int) + 2 ^ 31) % 2 ^ 32 - 2 ^ 31

/-- The outcome of an administrative call. -/
structure Result where
  state : State
  reply : Reply
  trace : List Event

/-! ## Membership queries -/

/-- The loop of `ListNodes`: `respList = append(respList, node.addr)`. -/
def ListNodes (s : State) : List String :=
  s.aliveNodes.foldl (fun respList n => respList ++ [n.addr]) []

/-- The loop of `getNodeIndex`, counting from `idx`. -/
def getNodeIndexFrom (idx : Nat) : List node → String → Except Error Nat
  | [], _ => .error .nodeNotFound
  | n :: rest, addr => if n.addr = addr then .ok idx else getNodeIndexFrom (idx + 1) rest addr

/-- The function `getNodeIndex`: index of the first node with address `addr`. -/
def getNodeIndex (aliveNodes : List node) (addr : String) : Except Error Nat :=
  getNodeIndexFrom 0 aliveNodes addr

/-- The call `sort.Slice(aliveNodes, less)` with `less` comparing hashes: a stable
insertion sort (what Go runs on slices of at most twelve elements; on distinct
hashes the result does not depend on the algorithm). -/
def sortSlice (l : List node) : List node :=
  l.insertionSort hashLE

/-! ## Migration -/

/-- The function `getDataBelongingToNode`: the files to hand to the new node. -/
def getDataBelongingToNode (L : GoLib) (data : List String) (nodeHash successorHash : Nat) :
    List String :=
  data.filter (fun file =>
    let fileHash := hashStringToUint64 L file
    if nodeHash < successorHash then
      !(decide (fileHash ≤ successorHash) && decide (fileHash > nodeHash))
    else
      decide (fileHash ≤ nodeHash) && decide (fileHash > successorHash))

/-- The outcome of a migration loop. -/
structure MoveResult where
  world : World
  crashed : Bool
  trace : List Event

/-- One iteration of the loop of `moveDataBetweenNodes`.  The three errors are
only printed.  After a `Read` that returned a `nil` response the expression
`fileData.FileData` panics; otherwise `Write` and `Remove` are both issued. -/
def moveOne (L : GoLib) (F : Faults) (src dst : String) (w : World) (file : String) :
    MoveResult :=
  let videoID := L.pathDir file
  let fileName := L.pathBase file
  match (rpcRead F w src videoID fileName).fileData with
  | none => ⟨w, true, [.read src videoID fileName]⟩
  | some fileData =>
    let w1 := (rpcWrite F w dst videoID fileName fileData).1
    let w2 := (rpcRemove F w1 src videoID fileName).1
    ⟨w2, false,
      [.read src videoID fileName, .write dst videoID fileName, .remove src videoID fileName]⟩

/-- The function `moveDataBetweenNodes`. -/
def moveDataBetweenNodes (L : GoLib) (F : Faults) (src dst : String) :
    List String → World → MoveResult
  | [], w => ⟨w, false, []⟩
  | file :: rest, w =>
    let r := moveOne L F src dst w file
    if r.crashed then r
    else
      let r2 := moveDataBetweenNodes L F src dst rest r.world
      ⟨r2.world, r2.crashed, r.trace ++ r2.trace⟩

/-! ## Membership changes -/

/-- The function `bootstrap`: connect, append, sort. -/
def bootstrap (L : GoLib) (F : Faults) (s : State) (addrs : String) : Result :=
  let newNodeHash := hashStringToUint64 L addrs
  if F.connect addrs then ⟨s, .err .connectFailed, []⟩
  else
    let newNode : node := ⟨addrs, newNodeHash⟩
    ⟨⟨sortSlice (s.aliveNodes ++ [newNode]), s.world⟩, .ok 0, [.lock, .unlock]⟩

/-- The function `AddNode`. -/
def AddNode (L : GoLib) (F : Faults) (s : State) (addr : String) : Result :=
  let newNodeHash := hashStringToUint64 L addr
  if F.connect addr then ⟨s, .err .connectFailed, []⟩
  else
    let newNode : node := ⟨addr, newNodeHash⟩
    match getNodeForHash s.aliveNodes newNodeHash with
    | .ok successorNode =>
      match rpcList L F s.world successorNode.addr with
      | .error e =>
        ⟨s, .err e, [.rlock, .runlock, .list successorNode.addr, .close addr]⟩
      | .ok files =>
        let dataToBeMoved := getDataBelongingToNode L files newNodeHash successorNode.hash
        let migratedFileCount := dataToBeMoved.length
        let mv := moveDataBetweenNodes L F successorNode.addr addr dataToBeMoved s.world
        if mv.crashed then
          ⟨⟨s.aliveNodes, mv.world⟩, .crash,
            [.rlock, .runlock, .list successorNode.addr] ++ mv.trace⟩
        else
          ⟨⟨sortSlice (s.aliveNodes ++ [newNode]), mv.world⟩, .ok (int32 migratedFileCount),
            [.rlock, .runlock, .list successorNode.addr] ++ mv.trace ++ [.lock, .unlock]⟩
    | .error _ =>
      ⟨⟨sortSlice (s.aliveNodes ++ [newNode]), s.world⟩, .ok (int32 0),
        [.rlock, .runlock, .lock, .unlock]⟩

/-- The function `RemoveNode`. -/
def RemoveNode (L : GoLib) (F : Faults) (s : State) (addr : String) : Result :=
  match getNodeIndex s.aliveNodes addr with
  | .error e => ⟨s, .err e, [.rlock, .runlock]⟩
  | .ok currentNodeIdx =>
    let len := s.aliveNodes.length
    if len > 1 then
      match s.aliveNodes[currentNodeIdx]?, s.aliveNodes[(currentNodeIdx + 1) % len]? with
      | some currentNode, some successorNode =>
        match rpcList L F s.world currentNode.addr with
        | .ok files =>
          let mv := moveDataBetweenNodes L F currentNode.addr successorNode.addr files s.world
          if mv.crashed then
            ⟨⟨s.aliveNodes, mv.world⟩, .crash,
              [.rlock, .runlock, .lock, .list currentNode.addr] ++ mv.trace ++ [.unlock]⟩
          else
            ⟨⟨s.aliveNodes.eraseIdx currentNodeIdx, mv.world⟩, .ok (int32 files.length),
              [.rlock, .runlock, .lock, .list currentNode.addr] ++ mv.trace ++
                [.close currentNode.addr, .unlock]⟩
        | .error _ =>
          ⟨⟨s.aliveNodes.eraseIdx currentNodeIdx, s.world⟩, .ok (int32 0),
            [.rlock, .runlock, .lock, .list currentNode.addr, .close currentNode.addr, .unlock]⟩
      | _, _ => ⟨s, .crash, [.rlock, .runlock, .lock, .unlock]⟩
    else
      ⟨⟨s.aliveNodes.eraseIdx currentNodeIdx, s.world⟩, .ok (int32 0),
        [.rlock, .runlock, .lock, .close addr, .unlock]⟩

/-! ## Router -/

/-- The method `Read` of the router. -/
def Read (L : GoLib) (F : Faults) (s : State) (videoId filename : String) :
    Except Error Bytes :=
  let videoHash := hashStringToUint64 L (L.pathJoin videoId filename)
  match getNodeForHash s.aliveNodes videoHash with
  | .error e => .error e
  | .ok n =>
    match rpcRead F s.world n.addr videoId filename with
    | .ok d => .ok d
    | _ => .error .rpcFailed

/-- The method `Write` of the router: the state afterwards and the error, if any. -/
def Write (L : GoLib) (F : Faults) (s : State) (videoId filename : String) (data : Bytes) :
    State × Option Error :=
  let videoHash := hashStringToUint64 L (L.pathJoin videoId filename)
  match getNodeForHash s.aliveNodes videoHash with
  | .error e => (s, some e)
  | .ok n =>
    let r := rpcWrite F s.world n.addr videoId filename data
    if r.2 then (⟨s.aliveNodes, r.1⟩, some .rpcFailed) else (⟨s.aliveNodes, r.1⟩, none)

/-- The states reachable from the empty ring by `bootstrap`, `AddNode` and
`RemoveNode` (under any failures) and by writes. -/
inductive Reachable (L : GoLib) : State → Prop where
  | init (w : World) : Reachable L ⟨[], w⟩
  | bootstrap {s : State} (F : Faults) (addr : String) :
      Reachable L s → Reachable L (bootstrap L F s addr).state
  | addNode {s : State} (F : Faults) (addr : String) :
      Reachable L s → Reachable L (AddNode L F s addr).state
  | removeNode {s : State} (F : Faults) (addr : String) :
      Reachable L s → Reachable L (RemoveNode L F s addr).state
  | write {s : State} (F : Faults) (videoId filename : String) (data : Bytes) :
      Reachable L s → Reachable L (Write L F s videoId filename data).1

/-! ## Specification-level notions and sample data -/

/-- The lookup on a sorted ring, as a relation between the hash and the node. -/
def Owner (ring : List node) (h : Nat) (n : node) : Prop :=
  n ∈ ring ∧
    ((h < n.hash ∧ ∀ m ∈ ring, h < m.hash → n.hash ≤ m.hash) ∨
     ((∀ m ∈ ring, m.hash ≤ h) ∧ ∀ m ∈ ring, n.hash ≤ m.hash))

/-- The ring of the scenario in the design document: `A` at 10 and `B` at 50. -/
def ringAB : List node := [⟨"A", 10⟩, ⟨"B", 50⟩]

/-- The events a migration from `src` to `dst` may perform: reads and removes
on `src`, writes on `dst`. -/
def Event.between (src dst : String) : Event → Prop
  | .read a _ _ => a = src
  | .write a _ _ => a = dst
  | .remove a _ _ => a = src
  | _ => False

/-- A toy digest: the last of eight bytes is 10 for `A`, 50 for `B`, 20 for `C`
and for the key `v/f`, 30 for the key `v/k`, and 0 otherwise. -/
def toyDigest (s : String) : List Nat :=
  [0, 0, 0, 0, 0, 0, 0,
    if s = "A" then 10 else if s = "B" then 50 else if s = "C" then 20
    else if s = "v/f" then 20 else if s = "v/k" then 30 else 0]

/-- A toy library: `toyDigest`, and the `path` functions on keys of the form
`videoId/fileName`. -/
def toyLib : GoLib where
  sha256Sum := toyDigest
  pathJoin := fun a b => a ++ "/" ++ b
  pathDir := fun s => String.mk (s.data.takeWhile (fun c => c ≠ '/'))
  pathBase := fun s => String.mk ((s.data.dropWhile (fun c => c ≠ '/')).drop 1)

/-- A world in which node `B` stores the file `v/f` and the others store nothing. -/
def worldB : World :=
  fun a => if a = "B" then [⟨"v", "f", [1, 2, 3]⟩] else []

/-- An environment in which every `Write` call fails and nothing else does. -/
def writeFaults : Faults :=
  ⟨fun _ => false, fun _ => false, fun _ _ _ => .none, fun _ _ _ => true, fun _ _ _ => false⟩

/-- The ring after `AddNode("A")` twice from the empty ring: `A` is listed twice. -/
def stateAA : State :=
  (AddNode toyLib noFaults (AddNode toyLib noFaults ⟨[], worldB⟩ "A").state "A").state

/-- An environment in which every `Read` call fails, handing back a `nil`
response, and nothing else does. -/
def readFaults : Faults :=
  ⟨fun _ => false, fun _ => false, fun _ _ _ => .failNil, fun _ _ _ => false,
    fun _ _ _ => false⟩

/-- A library whose digest gives every string the hash `h` (for `h < 256`). -/
def constLib (h : Nat) : GoLib where
  sha256Sum := fun _ => [0, 0, 0, 0, 0, 0, 0, h]
  pathJoin := fun a b => a ++ "/" ++ b
  pathDir := fun s => s
  pathBase := fun s => s

/-! ## Migration: what is selected, what is counted, what is locked -/

/-- The boundary rule in the words of the design document: a key with hash `kh`
moves when `kh <= newHash` in the non-wraparound case `newHash < successorHash`,
and when `successorHash < kh <= newHash` in the wraparound case. -/
def specSelected (newHash successorHash kh : Nat) : Bool :=
  if newHash < successorHash then decide (kh ≤ newHash)
  else decide (successorHash < kh) && decide (kh ≤ newHash)

/-- The boundary rule the code applies: in the non-wraparound case a key also
moves when its hash lies above the successor's hash. -/
def codeSelected (newHash successorHash kh : Nat) : Bool :=
  if newHash < successorHash then decide (kh ≤ newHash) || decide (successorHash < kh)
  else decide (successorHash < kh) && decide (kh ≤ newHash)

/-- Whether one iteration of the migration loop really migrates its key: the
read, the write and the remove all return without error. -/
def moveOneMigrated (L : GoLib) (F : Faults) (src dst : String) (w : World) (file : String) :
    Bool :=
  let videoID := L.pathDir file
  let fileName := L.pathBase file
  match rpcRead F w src videoID fileName with
  | .ok fileData =>
    let r1 := rpcWrite F w dst videoID fileName fileData
    let r2 := rpcRemove F r1.1 src videoID fileName
    !r1.2 && !r2.2
  | _ => false

/-- The number of keys a run of `moveDataBetweenNodes` really migrates. -/
def countMigrated (L : GoLib) (F : Faults) (src dst : String) : List String → World → Nat
  | [], _ => 0
  | file :: rest, w =>
    let r := moveOne L F src dst w file
    (if moveOneMigrated L F src dst w file then 1 else 0) +
      (if r.crashed then 0 else countMigrated L F src dst rest r.world)

/-- The list `dataToBeMoved` that `AddNode` hands to the migration loop (empty
when there is no successor or its `List` call fails). -/
def addNodeKeys (L : GoLib) (F : Faults) (s : State) (addr : String) : List String :=
  match getNodeForHash s.aliveNodes (hashStringToUint64 L addr) with
  | .ok successorNode =>
    match rpcList L F s.world successorNode.addr with
    | .ok files =>
      getDataBelongingToNode L files (hashStringToUint64 L addr) successorNode.hash
    | .error _ => []
  | .error _ => []

/-- The list `data.Files` that `RemoveNode` hands to the migration loop (empty
when the node is alone, is not found, or its `List` call fails). -/
def removeNodeKeys (L : GoLib) (F : Faults) (s : State) (addr : String) : List String :=
  match getNodeIndex s.aliveNodes addr with
  | .ok currentNodeIdx =>
    if s.aliveNodes.length > 1 then
      match s.aliveNodes[currentNodeIdx]? with
      | some currentNode =>
        match rpcList L F s.world currentNode.addr with
        | .ok files => files
        | .error _ => []
      | none => []
    else []
  | .error _ => []

/-- Whether a trace keeps the lock discipline: no remote call is made while the
ring mutex is held (read-locked or write-locked); `held` is the lock state at the
start of the trace. -/
def lockDiscipline : Bool → List Event → Bool
  | _, [] => true
  | _, .lock :: rest => lockDiscipline true rest
  | _, .rlock :: rest => lockDiscipline true rest
  | _, .unlock :: rest => lockDiscipline false rest
  | _, .runlock :: rest => lockDiscipline false rest
  | held, e :: rest => !(held && e.isRemote) && lockDiscipline held rest

/-! ## Lemmas on the lookup loop -/

theorem firstGreater_none {ring : List node} {h : Nat} :
    firstGreater ring h = none ↔ ∀ m ∈ ring, m.hash ≤ h := by
  induction ring with
  | nil => simp [firstGreater]
  | cons a rest ih =>
    by_cases hah : a.hash > h
    · simp only [firstGreater, hah, if_true, List.mem_cons, forall_eq_or_imp]
      constructor
      · intro hc; cases hc
      · intro hc; omega
    · simp only [firstGreater, hah, if_false, List.mem_cons, forall_eq_or_imp, ih]
      constructor
      · intro hc; exact ⟨by omega, hc⟩
      · intro hc; exact hc.2

theorem firstGreater_some {ring : List node} {h : Nat} {n : node}
    (hn : firstGreater ring h = some n) :
    ∃ pre post, ring = pre ++ n :: post ∧ (∀ m ∈ pre, m.hash ≤ h) ∧ h < n.hash := by
  induction ring with
  | nil => simp [firstGreater] at hn
  | cons a rest ih =>
    by_cases hah : a.hash > h
    · simp only [firstGreater, hah, if_true, Option.some.injEq] at hn
      subst hn
      exact ⟨[], rest, rfl, by simp, hah⟩
    · simp only [firstGreater, hah, if_false] at hn
      obtain ⟨pre, post, hr, hpre, hlt⟩ := ih hn
      refine ⟨a :: pre, post, by simp [hr], ?_, hlt⟩
      intro m hm
      rcases List.mem_cons.1 hm with rfl | hm
      · omega
      · exact hpre m hm

theorem getNodeForHash_error_iff (ring : List node) (h : Nat) :
    getNodeForHash ring h = .error .noLiveNodes ↔ ring = [] := by
  cases ring with
  | nil => simp [getNodeForHash]
  | cons a rest =>
    simp only [getNodeForHash]
    cases firstGreater (a :: rest) h <;> simp

/-- On a non-empty list the lookup returns the first node with a greater hash,
or the head when there is none. -/
theorem getNodeForHash_cases (ring : List node) (h : Nat) (hne : ring ≠ []) :
    ∃ n, getNodeForHash ring h = .ok n ∧
      (firstGreater ring h = some n ∨ (firstGreater ring h = none ∧ ring.head? = some n)) := by
  cases ring with
  | nil => exact absurd rfl hne
  | cons a rest =>
    simp only [getNodeForHash]
    cases hfg : firstGreater (a :: rest) h with
    | none => exact ⟨a, rfl, Or.inr ⟨rfl, rfl⟩⟩
    | some n => exact ⟨n, rfl, Or.inl rfl⟩

theorem head_le_of_sorted {ring : List node} {n : node} (hs : ring.Sorted hashLE)
    (hh : ring.head? = some n) : ∀ m ∈ ring, n.hash ≤ m.hash := by
  cases ring with
  | nil => simp at hh
  | cons a rest =>
    simp only [List.head?_cons, Option.some.injEq] at hh
    subst hh
    intro m hm
    rcases List.mem_cons.1 hm with rfl | hm
    · exact le_refl _
    · exact List.rel_of_sorted_cons hs m hm

theorem getNodeForHash_owner {ring : List node} {h : Nat} {n : node}
    (hs : ring.Sorted hashLE) (hn : getNodeForHash ring h = .ok n) : Owner ring h n := by
  have hne : ring ≠ [] := by
    rintro rfl
    simp [getNodeForHash] at hn
  obtain ⟨n1, hn1, hc⟩ := getNodeForHash_cases ring h hne
  rw [hn1] at hn
  cases hn
  rcases hc with hfg | ⟨hfg, hh⟩
  · obtain ⟨pre, post, hr, hpre, hlt⟩ := firstGreater_some hfg
    refine ⟨by simp [hr], Or.inl ⟨hlt, ?_⟩⟩
    intro m hm hmh
    subst hr
    rcases List.mem_append.1 hm with hm | hm
    · have := hpre m hm
      omega
    · rcases List.mem_cons.1 hm with rfl | hm
      · exact le_refl _
      · have h2 := (List.pairwise_append.1 hs).2.1
        exact List.rel_of_sorted_cons h2 m hm
  · refine ⟨List.mem_of_mem_head? hh, Or.inr ⟨firstGreater_none.1 hfg, head_le_of_sorted hs hh⟩⟩

/-- C1: on a ring sorted ascending by hash, `getNodeForHash` fails with the
empty-ring error exactly when the ring has no nodes; otherwise it returns a
member of the ring: the first node in list order with hash strictly greater than
`h` (which has the least such hash), or, when no node has a greater hash, the
head of the list, which has the smallest hash. -/
theorem getNodeForHash_spec (ring : List node) (h : Nat) (hs : ring.Sorted hashLE) :
    (getNodeForHash ring h = .error .noLiveNodes ↔ ring = []) ∧
    (ring ≠ [] → ∃ n, getNodeForHash ring h = .ok n ∧ n ∈ ring ∧
      ((∃ pre post, ring = pre ++ n :: post ∧ (∀ m ∈ pre, m.hash ≤ h) ∧ h < n.hash ∧
          ∀ m ∈ ring, h < m.hash → n.hash ≤ m.hash) ∨
       ((∀ m ∈ ring, m.hash ≤ h) ∧ ring.head? = some n ∧ ∀ m ∈ ring, n.hash ≤ m.hash))) := by
  refine ⟨getNodeForHash_error_iff ring h, fun hne => ?_⟩
  obtain ⟨n, hn, hc⟩ := getNodeForHash_cases ring h hne
  have ho := getNodeForHash_owner hs hn
  refine ⟨n, hn, ho.1, ?_⟩
  rcases hc with hfg | ⟨hfg, hh⟩
  · obtain ⟨pre, post, hr, hpre, hlt⟩ := firstGreater_some hfg
    refine Or.inl ⟨pre, post, hr, hpre, hlt, ?_⟩
    rcases ho.2 with h1 | h1
    · exact h1.2
    · have := h1.1 n ho.1
      omega
  · exact Or.inr ⟨firstGreater_none.1 hfg, hh, head_le_of_sorted hs hh⟩

theorem getNodeForHash_spec_witness :
    (getNodeForHash ringAB 30 = .error .noLiveNodes ↔ ringAB = []) ∧
    (ringAB ≠ [] → ∃ n, getNodeForHash ringAB 30 = .ok n ∧ n ∈ ringAB ∧
      ((∃ pre post, ringAB = pre ++ n :: post ∧ (∀ m ∈ pre, m.hash ≤ 30) ∧ 30 < n.hash ∧
          ∀ m ∈ ringAB, 30 < m.hash → n.hash ≤ m.hash) ∨
       ((∀ m ∈ ringAB, m.hash ≤ 30) ∧ ringAB.head? = some n ∧
          ∀ m ∈ ringAB, n.hash ≤ m.hash))) :=
  getNodeForHash_spec ringAB 30 (by decide)

/-! ## C2: a hash equal to a node's hash -/

/-- C2 (code at the failing input): on the strictly sorted ring `A:10, B:50` the
hash 10, which equals the hash of `A`, is routed to `B`, although `A` is the
node with the smallest hash that is at least 10. -/
theorem getNodeForHash_equal_hash_skips_node :
    ringAB.Sorted hashLT ∧ (⟨"A", 10⟩ : node) ∈ ringAB ∧
      getNodeForHash ringAB 10 = .ok ⟨"B", 50⟩ := by
  decide

/-! ## C3: the migration filter against the post-insertion lookup -/

/-- C3 (code at the failing input): on the ring `A:10, B:50` holding the key `v/f`
on `B`, adding a node whose hash equals the hash of that key (20) selects the key
for migration and moves it to the new node, while the lookup on the ring after
the insertion still routes hash 20 to `B`: the key is no longer readable. -/
theorem addNode_boundary_key_misrouted :
    getNodeForHash ringAB (hashStringToUint64 toyLib "C") = .ok ⟨"B", 50⟩ ∧
    getNodeForHash ringAB (hashStringToUint64 toyLib "v/f") = .ok ⟨"B", 50⟩ ∧
    "v/f" ∈ getDataBelongingToNode toyLib ["v/f"] (hashStringToUint64 toyLib "C") 50 ∧
    (AddNode toyLib noFaults ⟨ringAB, worldB⟩ "C").state.aliveNodes
      = [⟨"A", 10⟩, ⟨"C", 20⟩, ⟨"B", 50⟩] ∧
    getNodeForHash (AddNode toyLib noFaults ⟨ringAB, worldB⟩ "C").state.aliveNodes
      (hashStringToUint64 toyLib "v/f") = .ok ⟨"B", 50⟩ ∧
    Read toyLib noFaults ⟨ringAB, worldB⟩ "v" "f" = .ok [1, 2, 3] ∧
    Read toyLib noFaults (AddNode toyLib noFaults ⟨ringAB, worldB⟩ "C").state "v" "f"
      = .error .rpcFailed := by
  decide

/-! ## C4: lookups after a removal -/

theorem firstGreater_append_of_le {pre : List node} {h : Nat} (hpre : ∀ m ∈ pre, m.hash ≤ h)
    (l : List node) : firstGreater (pre ++ l) h = firstGreater l h := by
  induction pre with
  | nil => rfl
  | cons a rest ih =>
    have ha : ¬ a.hash > h := by
      have := hpre a (List.mem_cons_self _ _)
      omega
    have hrest : ∀ m ∈ rest, m.hash ≤ h := fun m hm => hpre m (List.mem_cons_of_mem _ hm)
    rw [List.cons_append]
    simp only [firstGreater, ha, if_false]
    exact ih hrest

theorem getNodeForHash_of_some {ring : List node} {h : Nat} {n : node}
    (hfg : firstGreater ring h = some n) : getNodeForHash ring h = .ok n := by
  cases ring with
  | nil => simp [firstGreater] at hfg
  | cons a rest => simp only [getNodeForHash, hfg]

theorem getNodeForHash_of_none {ring : List node} {h : Nat} {a : node}
    (hfg : firstGreater ring h = none) (hh : ring.head? = some a) :
    getNodeForHash ring h = .ok a := by
  cases ring with
  | nil => simp at hh
  | cons b rest =>
    simp only [List.head?_cons, Option.some.injEq] at hh
    subst hh
    simp only [getNodeForHash, hfg]

theorem sorted_le_of_lt {ring : List node} (hs : ring.Sorted hashLT) : ring.Sorted hashLE :=
  List.Pairwise.imp (fun hab => Nat.le_of_lt hab) hs

/-- Removing the node `x` that owns `h` from a strictly sorted ring of at least
two nodes hands `h` to the node that followed `x` (cyclically). -/
theorem lookup_after_erase (pre post : List node) (x : node) (h : Nat)
    (hs : (pre ++ x :: post).Sorted hashLT) (h2 : 2 ≤ (pre ++ x :: post).length)
    (hr : getNodeForHash (pre ++ x :: post) h = .ok x) :
    ∃ succ, (pre ++ x :: post)[(pre.length + 1) % (pre ++ x :: post).length]? = some succ ∧
      getNodeForHash (pre ++ post) h = .ok succ := by
  have hpw := List.pairwise_append.1 hs
  have hpre_lt : ∀ m ∈ pre, m.hash < x.hash := fun m hm => hpw.2.2 m hm x (List.mem_cons_self _ _)
  have hpost_gt : ∀ m ∈ post, x.hash < m.hash := fun m hm => List.rel_of_sorted_cons hpw.2.1 m hm
  have ho := getNodeForHash_owner (sorted_le_of_lt hs) hr
  rcases ho.2 with ⟨hlt, hmin⟩ | ⟨hall, hmin⟩
  · have hpre_le : ∀ m ∈ pre, m.hash ≤ h := by
      intro m hm
      by_contra hc
      have h1 := hmin m (List.mem_append_left _ hm) (by omega)
      have h2 := hpre_lt m hm
      omega
    cases post with
    | nil =>
      cases pre with
      | nil => simp at h2
      | cons a pre1 =>
        refine ⟨a, by simp, ?_⟩
        apply getNodeForHash_of_none
        · rw [List.append_nil]
          exact firstGreater_none.2 hpre_le
        · simp
    | cons p post1 =>
      refine ⟨p, ?_, ?_⟩
      · have hlen : (pre.length + 1) % (pre ++ x :: p :: post1).length = pre.length + 1 := by
          apply Nat.mod_eq_of_lt
          simp
        rw [hlen, List.getElem?_append_right (by omega)]
        simp
      · apply getNodeForHash_of_some
        rw [firstGreater_append_of_le hpre_le]
        have hp : p.hash > h := by
          have := hpost_gt p (List.mem_cons_self _ _)
          omega
        simp [firstGreater, hp]
  · cases pre with
    | cons a pre1 =>
      exfalso
      have h1 := hmin a (by simp)
      have h2 := hpre_lt a (List.mem_cons_self _ _)
      omega
    | nil =>
      cases post with
      | nil => simp at h2
      | cons p post1 =>
        refine ⟨p, by simp, ?_⟩
        apply getNodeForHash_of_none
        · apply firstGreater_none.2
          intro m hm
          exact hall m (by simp [List.mem_cons.1 hm])
        · simp

theorem split_at_index {ring : List node} {i : Nat} {x : node} (hx : ring[i]? = some x) :
    ring = ring.take i ++ x :: ring.drop (i + 1) ∧ (ring.take i).length = i := by
  obtain ⟨hi, hxi⟩ := List.getElem?_eq_some.1 hx
  refine ⟨?_, ?_⟩
  · rw [← hxi, ← List.drop_eq_getElem_cons hi, List.take_append_drop]
  · rw [List.length_take]
    omega

theorem moveOne_trace_between (L : GoLib) (F : Faults) (src dst : String) (w : World)
    (file : String) : ∀ e ∈ (moveOne L F src dst w file).trace, e.between src dst := by
  intro e he
  unfold moveOne at he
  cases hrd : (rpcRead F w src (L.pathDir file) (L.pathBase file)).fileData with
  | none =>
    simp only [hrd, List.mem_singleton] at he
    subst he
    rfl
  | some d =>
    simp only [hrd, List.mem_cons, List.mem_singleton, List.not_mem_nil, or_false] at he
    rcases he with rfl | rfl | rfl <;> rfl

theorem moveData_trace_between (L : GoLib) (F : Faults) (src dst : String) (data : List String)
    (w : World) :
    ∀ e ∈ (moveDataBetweenNodes L F src dst data w).trace, e.between src dst := by
  induction data generalizing w with
  | nil => simp [moveDataBetweenNodes]
  | cons file rest ih =>
    intro e he
    unfold moveDataBetweenNodes at he
    by_cases hc : (moveOne L F src dst w file).crashed = true
    · simp only [hc, if_true] at he
      exact moveOne_trace_between L F src dst w file e he
    · simp only [hc] at he
      rcases List.mem_append.1 he with he | he
      · exact moveOne_trace_between L F src dst w file e he
      · exact ih _ e he

/-- C4: in a strictly sorted ring of at least two nodes, every hash `h` routed to
the node `x` at index `i` is, on the ring without that node, routed to the node
`succ` that was at index `(i+1) mod len`; and a `RemoveNode` call that locates
index `i` writes the migrated files to `succ` only and, when it returns a
response, leaves exactly the ring without index `i`. -/
theorem removeNode_hands_over (ring : List node) (i : Nat) (x : node) (h : Nat)
    (hs : ring.Sorted hashLT) (h2 : 2 ≤ ring.length) (hx : ring[i]? = some x)
    (hr : getNodeForHash ring h = .ok x) :
    ∃ succ, ring[(i + 1) % ring.length]? = some succ ∧
      getNodeForHash (ring.eraseIdx i) h = .ok succ ∧
      ∀ (L : GoLib) (F : Faults) (w : World) (a : String), getNodeIndex ring a = .ok i →
        (∀ b v f, Event.write b v f ∈ (RemoveNode L F ⟨ring, w⟩ a).trace → b = succ.addr) ∧
        (∀ c, (RemoveNode L F ⟨ring, w⟩ a).reply = .ok c →
          (RemoveNode L F ⟨ring, w⟩ a).state.aliveNodes = ring.eraseIdx i) := by
  obtain ⟨hsplit, hlen⟩ := split_at_index hx
  have key := lookup_after_erase (ring.take i) (ring.drop (i + 1)) x h
    (by rw [← hsplit]; exact hs) (by rw [← hsplit]; exact h2) (by rw [← hsplit]; exact hr)
  rw [← hsplit, hlen, ← List.eraseIdx_eq_take_drop_succ] at key
  obtain ⟨succ, hsucc, hlook⟩ := key
  refine ⟨succ, hsucc, hlook, ?_⟩
  intro L F w a hidx
  have hgt : ring.length > 1 := by omega
  unfold RemoveNode
  simp only [hidx, hgt, if_true, hx, hsucc]
  cases hl : rpcList L F w x.addr with
  | error e =>
    refine ⟨?_, fun _ _ => rfl⟩
    intro b v f hmem
    simp at hmem
  | ok files =>
    cases hc : (moveDataBetweenNodes L F x.addr succ.addr files w).crashed with
    | true =>
      simp only [hc, if_true]
      refine ⟨?_, fun c hcr => by cases hcr⟩
      intro b v f hmem
      simp only [List.mem_append, List.mem_cons, List.mem_singleton, List.not_mem_nil,
        reduceCtorEq, false_or, or_false] at hmem
      exact moveData_trace_between L F x.addr succ.addr files w _ hmem
    | false =>
      simp only [hc, Bool.false_eq_true, if_false]
      refine ⟨?_, fun _ _ => trivial⟩
      intro b v f hmem
      simp only [List.mem_append, List.mem_cons, List.mem_singleton, List.not_mem_nil,
        reduceCtorEq, false_or, or_false] at hmem
      exact moveData_trace_between L F x.addr succ.addr files w _ hmem

theorem removeNode_hands_over_witness :
    ∃ succ, ringAB[(0 + 1) % ringAB.length]? = some succ ∧
      getNodeForHash (ringAB.eraseIdx 0) 5 = .ok succ ∧
      ∀ (L : GoLib) (F : Faults) (w : World) (a : String), getNodeIndex ringAB a = .ok 0 →
        (∀ b v f, Event.write b v f ∈ (RemoveNode L F ⟨ringAB, w⟩ a).trace → b = succ.addr) ∧
        (∀ c, (RemoveNode L F ⟨ringAB, w⟩ a).reply = .ok c →
          (RemoveNode L F ⟨ringAB, w⟩ a).state.aliveNodes = ringAB.eraseIdx 0) :=
  removeNode_hands_over ringAB 0 ⟨"A", 10⟩ 5 (by decide) (by decide) (by decide) (by decide)

/-! ## C5: write then read through the router -/

theorem lookup_put (st : Store) (videoId fileName : String) (data : Bytes) :
    (st.put videoId fileName data).lookup videoId fileName = some data := by
  simp [Store.put, Store.lookup, File.named, List.find?]

theorem world_set_same (w : World) (a : String) (st : Store) : (w.set a st) a = st := by
  simp [World.set]

/-- C5: on a non-empty ring, when neither the write nor the read call fails in
transport, `Write(videoId, filename, v)` reports no error and a following
`Read(videoId, filename)` on the unchanged ring returns exactly `v`: both resolve
the key to the same node. -/
theorem write_then_read (L : GoLib) (F1 F2 : Faults) (s : State) (videoId filename : String)
    (v : Bytes) (hne : s.aliveNodes ≠ [])
    (hw : ∀ a, F1.write a videoId filename = false)
    (hr : ∀ a, F2.read a videoId filename = .none) :
    (Write L F1 s videoId filename v).2 = none ∧
    (Write L F1 s videoId filename v).1.aliveNodes = s.aliveNodes ∧
    Read L F2 (Write L F1 s videoId filename v).1 videoId filename = .ok v := by
  obtain ⟨n, hn, -⟩ :=
    getNodeForHash_cases s.aliveNodes (hashStringToUint64 L (L.pathJoin videoId filename)) hne
  simp only [Write, Read, hn, rpcWrite, hw, rpcRead, hr, Bool.false_eq_true, if_false,
    world_set_same, lookup_put, and_self]

theorem write_then_read_witness :
    (Write toyLib noFaults ⟨ringAB, worldB⟩ "v" "k" [7, 8]).2 = none ∧
    (Write toyLib noFaults ⟨ringAB, worldB⟩ "v" "k" [7, 8]).1.aliveNodes = ringAB ∧
    Read toyLib noFaults (Write toyLib noFaults ⟨ringAB, worldB⟩ "v" "k" [7, 8]).1 "v" "k"
      = .ok [7, 8] :=
  write_then_read toyLib noFaults noFaults ⟨ringAB, worldB⟩ "v" "k" [7, 8] (by decide)
    (fun _ => rfl) (fun _ => rfl)

/-! ## C6: the ring stays sorted -/

theorem sortSlice_sorted (l : List node) : (sortSlice l).Sorted hashLE :=
  List.sorted_insertionSort hashLE l

theorem sortSlice_perm (l : List node) : (sortSlice l).Perm l :=
  List.perm_insertionSort hashLE l

theorem eraseIdx_sorted {l : List node} (hs : l.Sorted hashLE) (i : Nat) :
    (l.eraseIdx i).Sorted hashLE :=
  List.Pairwise.sublist (List.eraseIdx_sublist l i) hs

theorem listNodes_loop (l : List node) (acc : List String) :
    l.foldl (fun respList n => respList ++ [n.addr]) acc = acc ++ l.map (fun n => n.addr) := by
  induction l generalizing acc with
  | nil => simp
  | cons a rest ih => simp [List.foldl, ih]

theorem listNodes_eq (s : State) : ListNodes s = s.aliveNodes.map (fun n => n.addr) := by
  simp [ListNodes, listNodes_loop]

theorem bootstrap_sorted (L : GoLib) (F : Faults) (s : State) (addr : String)
    (hs : s.aliveNodes.Sorted hashLE) : (bootstrap L F s addr).state.aliveNodes.Sorted hashLE := by
  unfold bootstrap
  by_cases hc : F.connect addr = true
  · simpa [hc] using hs
  · simpa [hc] using sortSlice_sorted _

theorem addNode_sorted (L : GoLib) (F : Faults) (s : State) (addr : String)
    (hs : s.aliveNodes.Sorted hashLE) : (AddNode L F s addr).state.aliveNodes.Sorted hashLE := by
  unfold AddNode
  by_cases hc : F.connect addr = true
  · simpa [hc] using hs
  · simp only [hc, Bool.false_eq_true, if_false]
    cases hg : getNodeForHash s.aliveNodes (hashStringToUint64 L addr) with
    | error e => exact sortSlice_sorted _
    | ok succ =>
      simp only
      cases hl : rpcList L F s.world succ.addr with
      | error e => exact hs
      | ok files =>
        simp only
        split
        · exact hs
        · exact sortSlice_sorted _

theorem removeNode_sorted (L : GoLib) (F : Faults) (s : State) (addr : String)
    (hs : s.aliveNodes.Sorted hashLE) : (RemoveNode L F s addr).state.aliveNodes.Sorted hashLE := by
  unfold RemoveNode
  cases hidx : getNodeIndex s.aliveNodes addr with
  | error e => exact hs
  | ok idx =>
    simp only
    split
    · split
      · split
        · split
          · exact hs
          · exact eraseIdx_sorted hs _
        · exact eraseIdx_sorted hs _
      · exact hs
    · exact eraseIdx_sorted hs _

theorem write_ring (L : GoLib) (F : Faults) (s : State) (videoId filename : String) (d : Bytes) :
    (Write L F s videoId filename d).1.aliveNodes = s.aliveNodes := by
  cases hg : getNodeForHash s.aliveNodes (hashStringToUint64 L (L.pathJoin videoId filename)) with
  | error e => simp only [Write, hg]
  | ok n =>
    by_cases hc : (rpcWrite F s.world n.addr videoId filename d).2 = true
    · simp only [Write, hg, hc, if_true]
    · simp only [Write, hg, hc, Bool.false_eq_true, if_false]

/-- C6: in every state reachable from the empty ring by `bootstrap`, `AddNode`
and `RemoveNode` (and router writes), under any failures, the node list is sorted
ascending by hash, and `ListNodes` returns the addresses of the current members
in that order. -/
theorem reachable_sorted (L : GoLib) (s : State) (hR : Reachable L s) :
    s.aliveNodes.Sorted hashLE ∧ ListNodes s = s.aliveNodes.map (fun n => n.addr) := by
  refine ⟨?_, listNodes_eq s⟩
  induction hR with
  | init w => exact List.sorted_nil
  | bootstrap F addr _ ih => exact bootstrap_sorted L F _ addr ih
  | addNode F addr _ ih => exact addNode_sorted L F _ addr ih
  | removeNode F addr _ ih => exact removeNode_sorted L F _ addr ih
  | write F v f d _ ih => rw [write_ring]; exact ih

theorem reachable_sorted_witness :
    (AddNode toyLib noFaults (AddNode toyLib noFaults ⟨[], worldB⟩ "B").state "A").state.aliveNodes.Sorted
        hashLE ∧
      ListNodes (AddNode toyLib noFaults (AddNode toyLib noFaults ⟨[], worldB⟩ "B").state "A").state
        = (AddNode toyLib noFaults (AddNode toyLib noFaults ⟨[], worldB⟩ "B").state
            "A").state.aliveNodes.map (fun n => n.addr) :=
  reachable_sorted toyLib _ (Reachable.addNode noFaults "A" (Reachable.addNode noFaults "B"
    (Reachable.init worldB)))

/-! ## C7: inserting a hash that is already in the ring -/

/-- C7 (counterexample): on the ring `A:10, B:50`, `AddNode("A")`, whose hash is
the hash of a current member, returns a response (count 0) and not an error, and
the node list afterwards holds `A` twice. -/
theorem addNode_duplicate_accepted :
    (∃ m ∈ ringAB, m.hash = hashStringToUint64 toyLib "A") ∧
    (AddNode toyLib noFaults ⟨ringAB, worldB⟩ "A").reply = .ok 0 ∧
    (AddNode toyLib noFaults ⟨ringAB, worldB⟩ "A").state.aliveNodes
      = [⟨"A", 10⟩, ⟨"A", 10⟩, ⟨"B", 50⟩] := by
  decide

/-- Whenever `AddNode` returns a response, the new list is the sorted old list
with the new node appended. -/
theorem addNode_ok_ring (L : GoLib) (F : Faults) (s : State) (addr : String) (c : Int)
    (hok : (AddNode L F s addr).reply = .ok c) :
    (AddNode L F s addr).state.aliveNodes
      = sortSlice (s.aliveNodes ++ [⟨addr, hashStringToUint64 L addr⟩]) := by
  unfold AddNode at hok ⊢
  by_cases hc : F.connect addr = true
  · simp [hc] at hok
  · simp only [hc, Bool.false_eq_true, if_false] at hok ⊢
    cases hg : getNodeForHash s.aliveNodes (hashStringToUint64 L addr) with
    | error e => rfl
    | ok succ =>
      simp only [hg] at hok ⊢
      cases hl : rpcList L F s.world succ.addr with
      | error e => simp [hl] at hok
      | ok files =>
        simp only [hl] at hok ⊢
        cases hcr : (moveDataBetweenNodes L F succ.addr addr
          (getDataBelongingToNode L files (hashStringToUint64 L addr) succ.hash) s.world).crashed with
        | true => simp [hcr] at hok
        | false => simp only [hcr, Bool.false_eq_true, if_false]

/-- C7 (amended): `AddNode` has no duplicate-hash check.  For every ring and every
address whose hash equals the hash of a current member, whenever `AddNode`
returns a response the node list afterwards consists of all previous nodes and
the new node (sorted ascending by hash), so it is one longer and holds at least
two nodes with that hash. -/
theorem addNode_duplicate_inserts (L : GoLib) (F : Faults) (s : State) (addr : String) (c : Int)
    (hdup : ∃ m ∈ s.aliveNodes, m.hash = hashStringToUint64 L addr)
    (hok : (AddNode L F s addr).reply = .ok c) :
    (AddNode L F s addr).state.aliveNodes.Perm (⟨addr, hashStringToUint64 L addr⟩ :: s.aliveNodes) ∧
    (AddNode L F s addr).state.aliveNodes.Sorted hashLE ∧
    (AddNode L F s addr).state.aliveNodes.length = s.aliveNodes.length + 1 ∧
    2 ≤ ((AddNode L F s addr).state.aliveNodes.filter
          (fun n => decide (n.hash = hashStringToUint64 L addr))).length := by
  have hperm : (AddNode L F s addr).state.aliveNodes.Perm
      (⟨addr, hashStringToUint64 L addr⟩ :: s.aliveNodes) := by
    rw [addNode_ok_ring L F s addr c hok]
    exact (sortSlice_perm _).trans (List.perm_append_singleton _ _)
  refine ⟨hperm, ?_, ?_, ?_⟩
  · rw [addNode_ok_ring L F s addr c hok]
    exact sortSlice_sorted _
  · rw [hperm.length_eq]
    rfl
  · rw [(hperm.filter _).length_eq]
    obtain ⟨m, hm, hmh⟩ := hdup
    have hpos : 0 < (s.aliveNodes.filter
        (fun n => decide (n.hash = hashStringToUint64 L addr))).length := by
      apply List.length_pos_of_mem (a := m)
      simp [List.mem_filter, hm, hmh]
    simp only [List.filter_cons, decide_True, if_true, List.length_cons]
    omega

theorem addNode_duplicate_inserts_witness :
    (AddNode toyLib noFaults ⟨ringAB, worldB⟩ "A").state.aliveNodes.Perm
      (⟨"A", hashStringToUint64 toyLib "A"⟩ :: ringAB) ∧
    (AddNode toyLib noFaults ⟨ringAB, worldB⟩ "A").state.aliveNodes.Sorted hashLE ∧
    (AddNode toyLib noFaults ⟨ringAB, worldB⟩ "A").state.aliveNodes.length = ringAB.length + 1 ∧
    2 ≤ ((AddNode toyLib noFaults ⟨ringAB, worldB⟩ "A").state.aliveNodes.filter
          (fun n => decide (n.hash = hashStringToUint64 toyLib "A"))).length :=
  addNode_duplicate_inserts toyLib noFaults ⟨ringAB, worldB⟩ "A" 0 (by decide) (by decide)

/-! ## C8: removing an address that is not a member -/

theorem getNodeIndexFrom_error (k : Nat) (l : List node) (a : String) (e : Error)
    (he : getNodeIndexFrom k l a = .error e) : e = .nodeNotFound ∧ ∀ n ∈ l, n.addr ≠ a := by
  induction l generalizing k with
  | nil =>
    simp only [getNodeIndexFrom, Except.error.injEq] at he
    exact ⟨he.symm, by simp⟩
  | cons x rest ih =>
    by_cases hx : x.addr = a
    · simp [getNodeIndexFrom, hx] at he
    · simp only [getNodeIndexFrom, hx, if_false] at he
      obtain ⟨h1, h2⟩ := ih (k + 1) he
      refine ⟨h1, ?_⟩
      intro n hn
      rcases List.mem_cons.1 hn with rfl | hn
      · exact hx
      · exact h2 n hn

theorem getNodeIndexFrom_ok (k : Nat) (l : List node) (a : String) (j : Nat)
    (hj : getNodeIndexFrom k l a = .ok j) :
    ∃ pre x post, l = pre ++ x :: post ∧ x.addr = a ∧ (∀ m ∈ pre, m.addr ≠ a) ∧
      j = k + pre.length := by
  induction l generalizing k with
  | nil => simp [getNodeIndexFrom] at hj
  | cons y rest ih =>
    by_cases hy : y.addr = a
    · simp only [getNodeIndexFrom, hy, if_true, Except.ok.injEq] at hj
      exact ⟨[], y, rest, rfl, hy, by simp, by simp [hj]⟩
    · simp only [getNodeIndexFrom, hy, if_false] at hj
      obtain ⟨pre, x, post, hl, hx, hpre, hjk⟩ := ih (k + 1) hj
      refine ⟨y :: pre, x, post, by simp [hl], hx, ?_, by simp [hjk]; omega⟩
      intro m hm
      rcases List.mem_cons.1 hm with rfl | hm
      · exact hy
      · exact hpre m hm

/-- Once the index is found, `RemoveNode` never returns an error. -/
theorem removeNode_reply_of_found (L : GoLib) (F : Faults) (s : State) (addr : String)
    (idx : Nat) (hidx : getNodeIndex s.aliveNodes addr = .ok idx) (e : Error) :
    (RemoveNode L F s addr).reply ≠ .err e := by
  unfold RemoveNode
  simp only [hidx]
  split
  · split
    · split
      · split <;> simp
      · simp
    · simp
  · simp

/-- C8: `RemoveNode(addr)` fails with the node-not-found error exactly when no
node of the ring has address `addr`; when it fails, the state (ring and remote
stores) is unchanged and no remote call was made. -/
theorem removeNode_not_found_iff (L : GoLib) (F : Faults) (s : State) (addr : String) :
    ((RemoveNode L F s addr).reply = .err .nodeNotFound ↔ ∀ n ∈ s.aliveNodes, n.addr ≠ addr) ∧
    ((RemoveNode L F s addr).reply = .err .nodeNotFound →
      (RemoveNode L F s addr).state = s ∧
      ∀ e ∈ (RemoveNode L F s addr).trace, e.isRemote = false) := by
  cases hidx : getNodeIndex s.aliveNodes addr with
  | error e =>
    obtain ⟨he, hall⟩ := getNodeIndexFrom_error 0 s.aliveNodes addr e hidx
    subst he
    have hrm : RemoveNode L F s addr = ⟨s, .err .nodeNotFound, [.rlock, .runlock]⟩ := by
      simp only [RemoveNode, hidx]
    rw [hrm]
    refine ⟨⟨fun _ => hall, fun _ => rfl⟩, fun _ => ⟨rfl, ?_⟩⟩
    intro e he
    simp only [List.mem_cons, List.mem_singleton, List.not_mem_nil, or_false] at he
    rcases he with rfl | rfl <;> rfl
  | ok idx =>
    have hne := removeNode_reply_of_found L F s addr idx hidx .nodeNotFound
    obtain ⟨pre, x, post, hl, hx, -, -⟩ := getNodeIndexFrom_ok 0 s.aliveNodes addr idx hidx
    refine ⟨⟨fun h => absurd h hne, fun hall => ?_⟩, fun h => absurd h hne⟩
    exact absurd hx (hall x (by simp [hl]))

/-! ## C9: the ring after a removal -/

/-- C9 (counterexample): after `AddNode("A")` twice from the empty ring the list
holds `A` twice; `RemoveNode("A")` then succeeds and `A` is still listed. -/
theorem removeNode_duplicate_still_listed :
    Reachable toyLib stateAA ∧ "A" ∈ ListNodes stateAA ∧
    (RemoveNode toyLib noFaults stateAA "A").reply = .ok 0 ∧
    "A" ∈ ListNodes (RemoveNode toyLib noFaults stateAA "A").state :=
  ⟨Reachable.addNode noFaults "A" (Reachable.addNode noFaults "A" (Reachable.init worldB)),
    by decide, by decide, by decide⟩

theorem int32_zero : int32 0 = 0 := by decide

/-- Whenever `RemoveNode` returns a response, the located index is gone. -/
theorem removeNode_ok_ring (L : GoLib) (F : Faults) (s : State) (addr : String) (idx : Nat)
    (hidx : getNodeIndex s.aliveNodes addr = .ok idx) (c : Int)
    (hok : (RemoveNode L F s addr).reply = .ok c) :
    (RemoveNode L F s addr).state.aliveNodes = s.aliveNodes.eraseIdx idx := by
  revert hok
  unfold RemoveNode
  simp only [hidx]
  split
  · split
    · split
      · split
        · intro hok
          cases hok
        · intro _
          rfl
      · intro _
        rfl
    · intro hok
      cases hok
  · intro _
    rfl

theorem erase_first_eq_filter (pre post : List node) (x : node) (a : String) (hx : x.addr = a)
    (hpre : ∀ m ∈ pre, m.addr ≠ a) (hpost : ∀ m ∈ post, m.addr ≠ a) :
    (pre ++ x :: post).eraseIdx pre.length
      = (pre ++ x :: post).filter (fun n => decide (n.addr ≠ a)) := by
  rw [List.eraseIdx_append_of_length_le (le_refl _), Nat.sub_self, List.eraseIdx_cons_zero,
    List.filter_append, List.filter_cons]
  have h1 : pre.filter (fun n => decide (n.addr ≠ a)) = pre :=
    List.filter_eq_self.2 (fun m hm => by simpa using hpre m hm)
  have h2 : post.filter (fun n => decide (n.addr ≠ a)) = post :=
    List.filter_eq_self.2 (fun m hm => by simpa using hpost m hm)
  rw [h1, h2]
  simp [hx]

/-- C9 (amended): for every ring in which `addr` is the address of exactly one
node, removing the only node of a single-node ring returns the count 0 and leaves
the empty ring, on which every lookup fails with the empty-ring error; and
whenever `RemoveNode(addr)` returns a response, `addr` is absent from `ListNodes`
and the node list is the previous one without that node, all other members in
the same order. -/
theorem removeNode_removes_member (L : GoLib) (F : Faults) (s : State) (addr : String)
    (hone : (ListNodes s).count addr = 1) :
    (s.aliveNodes.length = 1 →
      (RemoveNode L F s addr).reply = .ok 0 ∧ (RemoveNode L F s addr).state.aliveNodes = [] ∧
      ∀ h, getNodeForHash (RemoveNode L F s addr).state.aliveNodes h = .error .noLiveNodes) ∧
    (∀ c, (RemoveNode L F s addr).reply = .ok c →
      addr ∉ ListNodes (RemoveNode L F s addr).state ∧
      (RemoveNode L F s addr).state.aliveNodes
        = s.aliveNodes.filter (fun n => decide (n.addr ≠ addr))) := by
  have hmem : addr ∈ ListNodes s := List.count_pos_iff.1 (by omega)
  rw [listNodes_eq] at hone hmem
  cases hidx : getNodeIndex s.aliveNodes addr with
  | error e =>
    obtain ⟨-, hall⟩ := getNodeIndexFrom_error 0 s.aliveNodes addr e hidx
    obtain ⟨n, hn, hna⟩ := List.mem_map.1 hmem
    exact absurd hna (hall n hn)
  | ok idx =>
    obtain ⟨pre, x, post, hl, hx, hpre, hj⟩ := getNodeIndexFrom_ok 0 s.aliveNodes addr idx hidx
    have hidx0 : idx = pre.length := by omega
    subst hidx0
    have hpost : ∀ m ∈ post, m.addr ≠ addr := by
      rw [hl] at hone
      simp only [List.map_append, List.map_cons, List.count_append, List.count_cons, hx,
        beq_self_eq_true, if_true] at hone
      have hz : List.count addr (post.map (fun n => n.addr)) = 0 := by omega
      intro m hm hma
      exact List.count_eq_zero.1 hz (List.mem_map.2 ⟨m, hm, hma⟩)
    constructor
    · intro hlen1
      have hpre0 : pre = [] := by
        rw [hl] at hlen1
        simp only [List.length_append, List.length_cons] at hlen1
        exact List.length_eq_zero.1 (by omega)
      have hpost0 : post = [] := by
        rw [hl] at hlen1
        simp only [List.length_append, List.length_cons] at hlen1
        exact List.length_eq_zero.1 (by omega)
      subst hpre0 hpost0
      have hrm : RemoveNode L F s addr
          = ⟨⟨s.aliveNodes.eraseIdx 0, s.world⟩, .ok (int32 0),
              [.rlock, .runlock, .lock, .close addr, .unlock]⟩ := by
        have hnot : ¬ s.aliveNodes.length > 1 := by omega
        simp only [RemoveNode, hidx, hnot, if_false, List.length_nil]
      rw [hrm]
      refine ⟨by simp only [int32_zero], by simp [hl], ?_⟩
      intro h
      simp [hl, getNodeForHash]
    · intro c hok
      have hring := removeNode_ok_ring L F s addr pre.length hidx c hok
      have hflt : (RemoveNode L F s addr).state.aliveNodes
          = s.aliveNodes.filter (fun n => decide (n.addr ≠ addr)) := by
        rw [hring, hl]
        exact erase_first_eq_filter pre post x addr hx hpre hpost
      refine ⟨?_, hflt⟩
      rw [listNodes_eq, hflt]
      intro hin
      obtain ⟨n, hn, hna⟩ := List.mem_map.1 hin
      have := (List.mem_filter.1 hn).2
      simp only [decide_eq_true_eq] at this
      exact this hna

theorem removeNode_removes_member_witness :
    (ringAB.length = 1 →
      (RemoveNode toyLib noFaults ⟨ringAB, worldB⟩ "A").reply = .ok 0 ∧
      (RemoveNode toyLib noFaults ⟨ringAB, worldB⟩ "A").state.aliveNodes = [] ∧
      ∀ h, getNodeForHash (RemoveNode toyLib noFaults ⟨ringAB, worldB⟩ "A").state.aliveNodes h
        = .error .noLiveNodes) ∧
    (∀ c, (RemoveNode toyLib noFaults ⟨ringAB, worldB⟩ "A").reply = .ok c →
      "A" ∉ ListNodes (RemoveNode toyLib noFaults ⟨ringAB, worldB⟩ "A").state ∧
      (RemoveNode toyLib noFaults ⟨ringAB, worldB⟩ "A").state.aliveNodes
        = ringAB.filter (fun n => decide (n.addr ≠ "A"))) :=
  removeNode_removes_member toyLib noFaults ⟨ringAB, worldB⟩ "A" (by decide)

/-! ## C10: a failed write during migration -/

/-- C10 (code at the failing input): node `B` holds the key `v/f`; while it is
migrated to `C` the read succeeds, the write to `C` fails and the remove on `B`
succeeds.  The remove is issued although the write failed, and afterwards the
key is on neither node. -/
theorem moveData_failed_write_loses_key :
    (worldB "B").lookup "v" "f" = some [1, 2, 3] ∧
    rpcRead writeFaults worldB "B" "v" "f" = .ok [1, 2, 3] ∧
    (rpcWrite writeFaults worldB "C" "v" "f" [1, 2, 3]).2 = true ∧
    (moveDataBetweenNodes toyLib writeFaults "B" "C" ["v/f"] worldB).crashed = false ∧
    (moveDataBetweenNodes toyLib writeFaults "B" "C" ["v/f"] worldB).trace
      = [.read "B" "v" "f", .write "C" "v" "f", .remove "B" "v" "f"] ∧
    ((moveDataBetweenNodes toyLib writeFaults "B" "C" ["v/f"] worldB).world "B").lookup "v" "f"
      = none ∧
    ((moveDataBetweenNodes toyLib writeFaults "B" "C" ["v/f"] worldB).world "C").lookup "v" "f"
      = none := by
  decide

/-! ## C11: a failed read during migration -/

/-- C11 (code at the failing input): on the ring `A:10, B:50` with the key `v/f`
on `B`, when the read of that key fails (the client hands back a `nil` response),
both `RemoveNode("B")` and `AddNode("C")` end in a panic: no response is
returned and the ring mutation is not committed. -/
theorem migration_read_failure_crashes :
    (RemoveNode toyLib readFaults ⟨ringAB, worldB⟩ "B").reply = .crash ∧
    (RemoveNode toyLib readFaults ⟨ringAB, worldB⟩ "B").state.aliveNodes = ringAB ∧
    (AddNode toyLib readFaults ⟨ringAB, worldB⟩ "C").reply = .crash ∧
    (AddNode toyLib readFaults ⟨ringAB, worldB⟩ "C").state.aliveNodes = ringAB := by
  decide

/-! ## C12: the returned count -/

/-- C12 (counterexample): with every write failing, `RemoveNode("B")` and
`AddNode("C")` on the ring `A:10, B:50` (key `v/f` on `B`) both report the count
1, although no key is migrated. -/
theorem count_includes_failed_keys :
    (RemoveNode toyLib writeFaults ⟨ringAB, worldB⟩ "B").reply = .ok 1 ∧
    removeNodeKeys toyLib writeFaults ⟨ringAB, worldB⟩ "B" = ["v/f"] ∧
    countMigrated toyLib writeFaults "B" "A" ["v/f"] worldB = 0 ∧
    (AddNode toyLib writeFaults ⟨ringAB, worldB⟩ "C").reply = .ok 1 ∧
    addNodeKeys toyLib writeFaults ⟨ringAB, worldB⟩ "C" = ["v/f"] ∧
    countMigrated toyLib writeFaults "B" "C" ["v/f"] worldB = 0 := by
  decide

theorem int32_of_lt (n : Nat) (hn : n < 2 ^ 31) : int32 n = n := by
  unfold int32
  omega

theorem addNode_count (L : GoLib) (F : Faults) (s : State) (addr : String) (c : Int)
    (hok : (AddNode L F s addr).reply = .ok c) :
    c = int32 (addNodeKeys L F s addr).length := by
  revert hok
  unfold AddNode addNodeKeys
  by_cases hc : F.connect addr = true
  · simp [hc]
  · simp only [hc, Bool.false_eq_true, if_false]
    cases hg : getNodeForHash s.aliveNodes (hashStringToUint64 L addr) with
    | error e =>
      intro hok
      simp only [Reply.ok.injEq] at hok
      simp [← hok]
    | ok succ =>
      simp only
      cases hl : rpcList L F s.world succ.addr with
      | error e => simp
      | ok files =>
        simp only
        cases hcr : (moveDataBetweenNodes L F succ.addr addr
          (getDataBelongingToNode L files (hashStringToUint64 L addr) succ.hash) s.world).crashed with
        | true => simp
        | false =>
          simp only [Bool.false_eq_true, if_false, Reply.ok.injEq]
          intro hok
          exact hok.symm

theorem removeNode_count (L : GoLib) (F : Faults) (s : State) (addr : String) (c : Int)
    (hok : (RemoveNode L F s addr).reply = .ok c) :
    c = int32 (removeNodeKeys L F s addr).length := by
  revert hok
  unfold RemoveNode removeNodeKeys
  cases hidx : getNodeIndex s.aliveNodes addr with
  | error e => simp
  | ok idx =>
    simp only
    by_cases hlen : s.aliveNodes.length > 1
    · simp only [hlen, if_true]
      cases hx : s.aliveNodes[idx]? with
      | none => simp
      | some cur =>
        cases hsx : s.aliveNodes[(idx + 1) % s.aliveNodes.length]? with
        | none => simp
        | some succ =>
          simp only
          cases hl : rpcList L F s.world cur.addr with
          | error e =>
            simp only [Reply.ok.injEq, List.length_nil]
            intro hok
            exact hok.symm
          | ok files =>
            simp only
            cases hcr : (moveDataBetweenNodes L F cur.addr succ.addr files s.world).crashed with
            | true => simp
            | false =>
              simp only [Bool.false_eq_true, if_false, Reply.ok.injEq]
              intro hok
              exact hok.symm
    · simp only [hlen, if_false, Reply.ok.injEq, List.length_nil]
      intro hok
      exact hok.symm

/-- C12 (amended): the count returned by `AddNode` and by `RemoveNode` is the
number of keys handed to the migration loop (`dataToBeMoved`, respectively
`data.Files`), converted to `int32`, whether or not the read, write and remove of
each key succeeded; it is that number itself when it is below `2^31`. -/
theorem count_is_selected_length (L : GoLib) (F : Faults) (s : State) (addr : String) (c : Int) :
    ((AddNode L F s addr).reply = .ok c →
      c = int32 (addNodeKeys L F s addr).length ∧
      ((addNodeKeys L F s addr).length < 2 ^ 31 → c = (addNodeKeys L F s addr).length)) ∧
    ((RemoveNode L F s addr).reply = .ok c →
      c = int32 (removeNodeKeys L F s addr).length ∧
      ((removeNodeKeys L F s addr).length < 2 ^ 31 → c = (removeNodeKeys L F s addr).length)) := by
  constructor
  · intro hok
    have h1 := addNode_count L F s addr c hok
    exact ⟨h1, fun hlt => by rw [h1, int32_of_lt _ hlt]⟩
  · intro hok
    have h1 := removeNode_count L F s addr c hok
    exact ⟨h1, fun hlt => by rw [h1, int32_of_lt _ hlt]⟩

/-! ## C13: the boundary rule of the migration filter -/

/-- C13 (counterexample): with `newHash = 20` and `successorHash = 50`
(non-wraparound) a key with hash 60 is selected by `getDataBelongingToNode`,
although `60 <= 20` is false and the rule of the design document rejects it. -/
theorem filter_selects_above_successor :
    hashStringToUint64 (constLib 60) "k" = 60 ∧
    getDataBelongingToNode (constLib 60) ["k"] 20 50 = ["k"] ∧
    ["k"].filter (fun k => specSelected 20 50 (hashStringToUint64 (constLib 60) k)) = [] := by
  decide

/-- C13 (amended): for every list of candidate keys, every `newHash` and every
`successorHash`, the result of `getDataBelongingToNode` is exactly the sub-list
(in input order) of the keys with hash `kh` such that `kh <= newHash` or
`kh > successorHash` when `newHash < successorHash` (non-wraparound), and
`successorHash < kh <= newHash` when `newHash >= successorHash` (wraparound).
This is the rule of the design document on every key with hash at most
`successorHash` and in the whole wraparound case; with `successorHash = 50` and
`newHash = 20` a key with hash 30 is not selected. -/
theorem getDataBelongingToNode_rule (L : GoLib) (data : List String)
    (newHash successorHash : Nat) :
    getDataBelongingToNode L data newHash successorHash
      = data.filter (fun k => codeSelected newHash successorHash (hashStringToUint64 L k)) ∧
    (∀ kh, codeSelected newHash successorHash kh = true ↔
      if newHash < successorHash then kh ≤ newHash ∨ successorHash < kh
      else successorHash < kh ∧ kh ≤ newHash) ∧
    (∀ kh, kh ≤ successorHash ∨ successorHash ≤ newHash →
      codeSelected newHash successorHash kh = specSelected newHash successorHash kh) ∧
    codeSelected 20 50 30 = false := by
  refine ⟨?_, ?_, ?_, by decide⟩
  · unfold getDataBelongingToNode
    congr 1
    funext k
    unfold codeSelected
    by_cases hlt : newHash < successorHash
    · simp only [hlt, if_true]
      by_cases h1 : hashStringToUint64 L k ≤ newHash
      · have h2 : ¬ hashStringToUint64 L k > newHash := by omega
        simp [h1, h2]
      · have h2 : hashStringToUint64 L k > newHash := by omega
        by_cases h3 : hashStringToUint64 L k ≤ successorHash
        · have h4 : ¬ successorHash < hashStringToUint64 L k := by omega
          simp [h1, h2, h3, h4]
        · have h4 : successorHash < hashStringToUint64 L k := by omega
          simp [h1, h2, h3, h4]
    · simp only [hlt, if_false]
      exact Bool.and_comm _ _
  · intro kh
    unfold codeSelected
    by_cases hlt : newHash < successorHash
    · simp [hlt]
    · simp [hlt]
  · intro kh hkh
    unfold codeSelected specSelected
    by_cases hlt : newHash < successorHash
    · have h4 : ¬ successorHash < kh := by omega
      simp [hlt, h4]
    · simp [hlt]

/-! ## C15: remote calls and the ring lock -/

theorem lockDiscipline_between (src dst : String) (tr rest : List Event)
    (htr : ∀ e ∈ tr, e.between src dst) :
    lockDiscipline false (tr ++ rest) = lockDiscipline false rest := by
  induction tr with
  | nil => rfl
  | cons e tr1 ih =>
    have he := htr e (List.mem_cons_self _ _)
    have ih1 := ih (fun x hx => htr x (List.mem_cons_of_mem _ hx))
    cases e <;> simp [Event.between] at he <;> simp [lockDiscipline, ih1]

/-- Every `AddNode` call keeps the lock discipline: its remote calls are made
with the lock released, and the lock is taken only for the list mutation. -/
theorem addNode_lock_discipline (L : GoLib) (F : Faults) (s : State) (addr : String) :
    lockDiscipline false (AddNode L F s addr).trace = true := by
  unfold AddNode
  by_cases hc : F.connect addr = true
  · simp [hc, lockDiscipline]
  · simp only [hc, Bool.false_eq_true, if_false]
    cases hg : getNodeForHash s.aliveNodes (hashStringToUint64 L addr) with
    | error e => simp [lockDiscipline]
    | ok succ =>
      simp only
      cases hl : rpcList L F s.world succ.addr with
      | error e => simp [lockDiscipline, Event.isRemote]
      | ok files =>
        simp only
        have hb := moveData_trace_between L F succ.addr addr
          (getDataBelongingToNode L files (hashStringToUint64 L addr) succ.hash) s.world
        cases hcr : (moveDataBetweenNodes L F succ.addr addr
          (getDataBelongingToNode L files (hashStringToUint64 L addr) succ.hash) s.world).crashed with
        | true =>
          simp only [if_true]
          have h0 := lockDiscipline_between succ.addr addr _ [] hb
          simp only [List.append_nil] at h0
          simp [lockDiscipline, Event.isRemote, h0]
        | false =>
          simp only [Bool.false_eq_true, if_false]
          have h0 := lockDiscipline_between succ.addr addr _ [Event.lock, Event.unlock] hb
          simp [lockDiscipline, Event.isRemote, h0]

/-- C15 (code at the failing input): `RemoveNode("B")` on the ring `A:10, B:50`
(key `v/f` on `B`, no failure) takes the write lock and then lists, reads, writes
and removes on the storage nodes before releasing it, so its trace breaks the
lock discipline; `AddNode("C")` on the same state keeps it. -/
theorem removeNode_holds_lock_across_calls :
    (RemoveNode toyLib noFaults ⟨ringAB, worldB⟩ "B").trace
      = [.rlock, .runlock, .lock, .list "B", .read "B" "v" "f", .write "A" "v" "f",
          .remove "B" "v" "f", .close "B", .unlock] ∧
    lockDiscipline false (RemoveNode toyLib noFaults ⟨ringAB, worldB⟩ "B").trace = false ∧
    lockDiscipline false (AddNode toyLib noFaults ⟨ringAB, worldB⟩ "C").trace = true := by
  decide

/-! ## C14: lookups after an insertion -/

theorem hash_inj_of_sorted {ring : List node} (hs : ring.Sorted hashLT) :
    ∀ a ∈ ring, ∀ b ∈ ring, a.hash = b.hash → a = b := by
  intro a ha b hb hab
  by_contra hne
  have hsym : Symmetric (fun x y : node => x.hash ≠ y.hash) := fun _ _ hxy => Ne.symm hxy
  have hpw : ring.Pairwise (fun x y : node => x.hash ≠ y.hash) :=
    List.Pairwise.imp (fun hxy => Nat.ne_of_lt hxy) hs
  exact hpw.forall hsym ha hb hne hab

theorem owner_unique {l : List node} {h : Nat} {n m : node}
    (hinj : ∀ a ∈ l, ∀ b ∈ l, a.hash = b.hash → a = b)
    (hn : Owner l h n) (hm : Owner l h m) : n = m := by
  apply hinj n hn.1 m hm.1
  rcases hn.2 with ⟨hnlt, hnmin⟩ | ⟨hnall, hnmin⟩
  · rcases hm.2 with ⟨hmlt, hmmin⟩ | ⟨hmall, hmmin⟩
    · have h1 := hnmin m hm.1 hmlt
      have h2 := hmmin n hn.1 hnlt
      omega
    · have h1 := hmall n hn.1
      omega
  · rcases hm.2 with ⟨hmlt, hmmin⟩ | ⟨hmall, hmmin⟩
    · have h1 := hnall m hm.1
      omega
    · have h1 := hnmin m hm.1
      have h2 := hmmin n hn.1
      omega

theorem mem_sortSlice_append (ring : List node) (x m : node) :
    m ∈ sortSlice (ring ++ [x]) ↔ m ∈ ring ∨ m = x := by
  rw [(sortSlice_perm (ring ++ [x])).mem_iff]
  simp

/-- A successful `AddNode` lists the keys of the successor and of no other node. -/
theorem addNode_ok_lists (L : GoLib) (F : Faults) (s : State) (addr : String) (succ : node)
    (hsucc : getNodeForHash s.aliveNodes (hashStringToUint64 L addr) = .ok succ) (c : Int)
    (hok : (AddNode L F s addr).reply = .ok c) :
    Event.list succ.addr ∈ (AddNode L F s addr).trace ∧
    ∀ a, Event.list a ∈ (AddNode L F s addr).trace → a = succ.addr := by
  revert hok
  unfold AddNode
  by_cases hc : F.connect addr = true
  · simp [hc]
  · simp only [hc, Bool.false_eq_true, if_false, hsucc]
    cases hl : rpcList L F s.world succ.addr with
    | error e => simp
    | ok files =>
      simp only
      have hb := moveData_trace_between L F succ.addr addr
        (getDataBelongingToNode L files (hashStringToUint64 L addr) succ.hash) s.world
      cases hcr : (moveDataBetweenNodes L F succ.addr addr
        (getDataBelongingToNode L files (hashStringToUint64 L addr) succ.hash) s.world).crashed with
      | true => simp
      | false =>
        simp only [Bool.false_eq_true, if_false]
        intro _
        refine ⟨by simp, ?_⟩
        intro a ha
        simp only [List.mem_append, List.mem_cons, List.mem_singleton, List.not_mem_nil,
          reduceCtorEq, false_or, or_false, Event.list.injEq] at ha
        rcases ha with ha | ha
        · exact ha
        · exact absurd (hb _ ha) (by simp [Event.between])

/-- C14: for every non-empty ring strictly sorted by hash, every new node whose
hash is not in the ring and every hash `h`, the lookup of `h` on the ring after
the insertion returns either the new node or the node returned before the
insertion; and when it returns the new node, the ring before the insertion
routed `h` to `getNodeForHash(newHash)`, the successor.  A successful `AddNode`
of that node commits exactly this post-insertion ring and lists the keys of the
successor and of no other node. -/
theorem insert_splits_successor (ring : List node) (newNode : node) (h : Nat)
    (hs : ring.Sorted hashLT) (hne : ring ≠ [])
    (hnew : ∀ m ∈ ring, m.hash ≠ newNode.hash) :
    ∃ p q succ, getNodeForHash ring h = .ok p ∧
      getNodeForHash (sortSlice (ring ++ [newNode])) h = .ok q ∧
      getNodeForHash ring newNode.hash = .ok succ ∧
      (q = newNode ∨ q = p) ∧ (q = newNode → p = succ) ∧
      ∀ (L : GoLib) (F : Faults) (w : World) (addr : String) (c : Int),
        newNode = ⟨addr, hashStringToUint64 L addr⟩ →
        (AddNode L F ⟨ring, w⟩ addr).reply = .ok c →
        (AddNode L F ⟨ring, w⟩ addr).state.aliveNodes = sortSlice (ring ++ [newNode]) ∧
        Event.list succ.addr ∈ (AddNode L F ⟨ring, w⟩ addr).trace ∧
        ∀ a, Event.list a ∈ (AddNode L F ⟨ring, w⟩ addr).trace → a = succ.addr := by
  have hmem := mem_sortSlice_append ring newNode
  have hpne : sortSlice (ring ++ [newNode]) ≠ [] :=
    List.ne_nil_of_mem ((hmem newNode).2 (Or.inr rfl))
  obtain ⟨p, hp, -⟩ := getNodeForHash_cases ring h hne
  obtain ⟨q, hq, -⟩ := getNodeForHash_cases (sortSlice (ring ++ [newNode])) h hpne
  obtain ⟨succ, hsucc, -⟩ := getNodeForHash_cases ring newNode.hash hne
  have hle := sorted_le_of_lt hs
  have hinj := hash_inj_of_sorted hs
  have hOp := getNodeForHash_owner hle hp
  have hOq := getNodeForHash_owner (sortSlice_sorted _) hq
  have hOs := getNodeForHash_owner hle hsucc
  have hin : ∀ m ∈ ring, m ∈ sortSlice (ring ++ [newNode]) := fun m hm => (hmem m).2 (Or.inl hm)
  refine ⟨p, q, succ, hp, hq, hsucc, ?_⟩
  have hmain : (q = newNode ∨ q = p) ∧ (q = newNode → p = succ) := by
    rcases (hmem q).1 hOq.1 with hqr | hqn
    · have hOq2 : Owner ring h q := by
        rcases hOq.2 with ⟨hlt, hmin⟩ | ⟨hall, hmin⟩
        · exact ⟨hqr, Or.inl ⟨hlt, fun m hm hmh => hmin m (hin m hm) hmh⟩⟩
        · exact ⟨hqr, Or.inr ⟨fun m hm => hall m (hin m hm), fun m hm => hmin m (hin m hm)⟩⟩
      refine ⟨Or.inr (owner_unique hinj hOq2 hOp), ?_⟩
      intro hqn
      exact absurd (by rw [hqn]) (hnew q hqr)
    · subst hqn
      refine ⟨Or.inl rfl, fun _ => ?_⟩
      have hOp2 : Owner ring q.hash p := by
        have hpq := hnew p hOp.1
        rcases hOq.2 with ⟨hlt, hmin⟩ | ⟨hall, hmin⟩
        · rcases hOp.2 with ⟨hplt, hpmin⟩ | ⟨hpall, hpmin⟩
          · have h1 := hmin p (hin p hOp.1) hplt
            exact ⟨hOp.1, Or.inl ⟨by omega, fun m hm hmh => hpmin m hm (by omega)⟩⟩
          · refine ⟨hOp.1, Or.inr ⟨fun m hm => ?_, hpmin⟩⟩
            have := hpall m hm
            omega
        · rcases hOp.2 with ⟨hplt, -⟩ | ⟨hpall, hpmin⟩
          · have := hall p (hin p hOp.1)
            omega
          · have h1 := hmin p (hin p hOp.1)
            exact ⟨hOp.1, Or.inl ⟨by omega, fun m hm _ => hpmin m hm⟩⟩
      exact owner_unique hinj hOp2 hOs
  refine ⟨hmain.1, hmain.2, ?_⟩
  intro L F w addr c hnn hok
  have hsucc2 : getNodeForHash (State.mk ring w).aliveNodes (hashStringToUint64 L addr)
      = .ok succ := by
    rw [hnn] at hsucc
    exact hsucc
  have hring := addNode_ok_ring L F ⟨ring, w⟩ addr c hok
  have hlists := addNode_ok_lists L F ⟨ring, w⟩ addr succ hsucc2 c hok
  refine ⟨?_, hlists.1, hlists.2⟩
  rw [hring, hnn]

theorem insert_splits_successor_witness :
    ∃ p q succ, getNodeForHash ringAB 15 = .ok p ∧
      getNodeForHash (sortSlice (ringAB ++ [⟨"C", 20⟩])) 15 = .ok q ∧
      getNodeForHash ringAB (node.mk "C" 20).hash = .ok succ ∧
      (q = ⟨"C", 20⟩ ∨ q = p) ∧ (q = ⟨"C", 20⟩ → p = succ) ∧
      ∀ (L : GoLib) (F : Faults) (w : World) (addr : String) (c : Int),
        (⟨"C", 20⟩ : node) = ⟨addr, hashStringToUint64 L addr⟩ →
        (AddNode L F ⟨ringAB, w⟩ addr).reply = .ok c →
        (AddNode L F ⟨ringAB, w⟩ addr).state.aliveNodes = sortSlice (ringAB ++ [⟨"C", 20⟩]) ∧
        Event.list succ.addr ∈ (AddNode L F ⟨ringAB, w⟩ addr).trace ∧
        ∀ a, Event.list a ∈ (AddNode L F ⟨ringAB, w⟩ addr).trace → a = succ.addr :=
  insert_splits_successor ringAB ⟨"C", 20⟩ 15 (by decide) (by decide) (by decide)

end TritonTube
